import Mathlib

/-!
Verification of the Bluestein FFT implementation in
`fourier-algorithms/src/bluesteins.rs` against its specification.

Buffers of complex samples are modelled as functions `ℕ → ℂ` (a slice of
length `n` is the restriction to indices `< n`); floating-point arithmetic is
idealised as exact real arithmetic, which is the regime in which the verified
properties are stated.  Machine integers (`usize`) are modelled as natural
numbers reduced modulo `2 ^ 64` where wrap-around matters.
-/

namespace FourierBluestein

open Complex Finset

/-- Modelled from the spec: the closed set of transform kinds of the crate's
`Transform` enum (its defining file is not among the provided sources). -/
inductive Transform where
  | Fft
  | UnscaledIfft
  | Ifft
  | SqrtScaledFft
  | SqrtScaledIfft
deriving DecidableEq

/-- Modelled from the spec: `Fft` and `SqrtScaledFft` are forward transforms,
while `Ifft`, `UnscaledIfft` and `SqrtScaledIfft` are inverse transforms. -/
def Transform.is_forward : Transform → Bool
  | .Fft => true
  | .SqrtScaledFft => true
  | _ => false

/-- Modelled from the spec: the inner FFT capability (the crate's `Fft` trait,
whose defining file is not among the provided sources) of fixed size `M`,
exposing an in-place forward transform and an in-place inverse transform over
length-`M` buffers. -/
structure InnerFft (M : ℕ) where
  fft : (ℕ → ℂ) → (ℕ → ℂ)
  ifft : (ℕ → ℂ) → (ℕ → ℂ)

/-- Embedding of `compute_half_twiddle` (bluesteins.rs lines 10–16). -/
noncomputable def compute_half_twiddle (index : ℝ) (size : ℕ) : ℂ :=
  ⟨Real.cos (index * Real.pi / (size : ℝ)), -Real.sin (index * Real.pi / (size : ℝ))⟩

/-- Embedding of the three-way index selection inside `initialize_w_twiddles`
(bluesteins.rs lines 28–36).  The subtraction `M - size` is the `usize`
subtraction `fft.size() - size`, which does not underflow in any constructed
engine because there `M ≥ 2·size − 1 ≥ size`. -/
noncomputable def w_twiddle_index (size M i : ℕ) : Option ℝ :=
  if i < size then some ((i : ℝ) ^ 2)
  else if M - size < i then some (((i : ℝ) - (M : ℝ)) ^ 2)
  else none

/-- Embedding of the value written into the forward `w` table at index `i` by
the fill loop of `initialize_w_twiddles` (bluesteins.rs lines 27–44). -/
noncomputable def initialize_w_forward (size M : ℕ) : ℕ → ℂ := fun i =>
  match w_twiddle_index size M i with
  | some index => star (compute_half_twiddle index size)
  | none => 0

/-- Embedding of the value written into the inverse `w` table at index `i` by
the fill loop of `initialize_w_twiddles` (bluesteins.rs lines 27–44). -/
noncomputable def initialize_w_inverse (size M : ℕ) : ℕ → ℂ := fun i =>
  match w_twiddle_index size M i with
  | some index => compute_half_twiddle index size
  | none => 0

/-- Embedding of the forward half of `initialize_x_twiddles`
(bluesteins.rs lines 50–62). -/
noncomputable def initialize_x_forward (size : ℕ) : ℕ → ℂ := fun i =>
  star (compute_half_twiddle (-(i : ℝ) ^ 2) size)

/-- Embedding of the inverse half of `initialize_x_twiddles`
(bluesteins.rs lines 50–62). -/
noncomputable def initialize_x_inverse (size : ℕ) : ℕ → ℂ := fun i =>
  compute_half_twiddle (-(i : ℝ) ^ 2) size

/-- Embedding of the `Bluesteins` struct (bluesteins.rs lines 65–74); the
scratch (`work`) buffer is passed around explicitly instead of being stored,
and its `RefCell` borrow flag is modelled separately by `borrow_mut`. -/
structure Bluesteins (size M : ℕ) where
  inner : InnerFft M
  w_forward : ℕ → ℂ
  w_inverse : ℕ → ℂ
  x_forward : ℕ → ℂ
  x_inverse : ℕ → ℂ

/-- Embedding of the table computation performed by `new_with_fft`
(bluesteins.rs lines 100–111): both `w` tables are filled and then transformed
in place by the inner FFT's forward operation (`initialize_w_twiddles`,
lines 45–46), and the `x` tables are filled from the closed form. -/
noncomputable def mkBluesteins (size M : ℕ) (inner : InnerFft M) : Bluesteins size M :=
  { inner := inner
    w_forward := inner.fft (initialize_w_forward size M)
    w_inverse := inner.fft (initialize_w_inverse size M)
    x_forward := initialize_x_forward size
    x_inverse := initialize_x_inverse size }

/-- Width of `usize` on the reference 64-bit target. -/
def USIZE_MOD : ℕ := 2 ^ 64

/-- Modelled from the documented behaviour of Rust's
`usize::checked_next_power_of_two` on a 64-bit target: the smallest power of
two greater than or equal to the argument, or `none` when that power of two
does not fit in `usize` (i.e. when the argument exceeds `2 ^ 63`). -/
def checked_next_power_of_two (n : ℕ) : Option ℕ :=
  if n ≤ 2 ^ 63 then some (2 ^ Nat.clog 2 n) else none

/-- Embedding of `inner_fft_size` (bluesteins.rs lines 77–79).  The
subtraction `2 * size - 1` uses the wrapping arithmetic of release-mode
`usize`; `none` models the panic of the final `Option::unwrap`. -/
def inner_fft_size (size : ℕ) : Option ℕ :=
  checked_next_power_of_two ((2 * size + (USIZE_MOD - 1)) % USIZE_MOD)

/-- Embedding of the first two loops of `apply` (bluesteins.rs lines 161–166):
the scratch buffer after chirp modulation (`work[i] = x[i]·input[i]` for
`i < size`) and zero padding (`work[size..] = 0`).  `work0` holds the scratch
buffer's prior contents; model positions at and beyond the buffer length `M`
keep those contents. -/
noncomputable def modulated_scratch (size M : ℕ) (x input work0 : ℕ → ℂ) : ℕ → ℂ :=
  fun i => if i < size then x i * input i else if i < M then 0 else work0 i

/-- Embedding of lines 167–170 of `apply`: the inner forward FFT of the
scratch buffer followed by the pointwise multiply with the (pre-transformed)
`w` table. -/
noncomputable def convolved_scratch (size M : ℕ) (x input work0 w : ℕ → ℂ)
    (inner : InnerFft M) : ℕ → ℂ :=
  fun i => inner.fft (modulated_scratch size M x input work0) i * w i

/-- Embedding of `apply` (bluesteins.rs lines 150–191): after the inner
inverse FFT of the convolved scratch buffer, the first `size` positions of the
caller's buffer are overwritten with `work[i]·x[i]` times the per-kind scale;
the remaining positions of the model function are the untouched input. -/
noncomputable def apply (size M : ℕ) (input work0 x w : ℕ → ℂ) (inner : InnerFft M)
    (transform : Transform) : ℕ → ℂ := fun i =>
  if i < size then
    match transform with
    | Transform.Fft | Transform.UnscaledIfft =>
        inner.ifft (convolved_scratch size M x input work0 w inner) i * x i
    | Transform.Ifft =>
        inner.ifft (convolved_scratch size M x input work0 w inner) i * x i *
          ((((1 : ℝ) / (size : ℝ)) : ℝ) : ℂ)
    | Transform.SqrtScaledFft | Transform.SqrtScaledIfft =>
        inner.ifft (convolved_scratch size M x input work0 w inner) i * x i *
          ((((1 : ℝ) / Real.sqrt (size : ℝ)) : ℝ) : ℂ)
  else input i

/-- Embedding of `Fft::transform_in_place` for `Bluesteins`
(bluesteins.rs lines 129–144): forward kinds select the forward table pair,
inverse kinds the inverse pair, and `apply` runs the pipeline. -/
noncomputable def transform_in_place (size M : ℕ) (e : Bluesteins size M)
    (work0 input : ℕ → ℂ) (transform : Transform) : ℕ → ℂ :=
  if transform.is_forward then
    apply size M input work0 e.x_forward e.w_forward e.inner transform
  else
    apply size M input work0 e.x_inverse e.w_inverse e.inner transform

/-- Embedding of `new_with_fft` (bluesteins.rs lines 90–112) together with the
length assertions of `initialize_w_twiddles` (lines 25–26) and
`initialize_x_twiddles` (lines 55–56), in source order.  The buffer arguments
are lists whose contents are irrelevant (construction overwrites the tables
completely), so only their lengths take part; `none` models a panicking
assertion.  The first condition models line 99's
`assert_eq!(inner_fft.size(), inner_fft_size(size))`: it is false both when
`inner_fft_size` itself panics (returns `none`) and when its value differs
from the inner FFT's size `M`, and either failure aborts construction. -/
noncomputable def new_with_fft (size M : ℕ) (inner : InnerFft M)
    (w_forward w_inverse x_forward x_inverse work : List ℂ) :
    Option (Bluesteins size M) :=
  if inner_fft_size size = some M then
    if w_forward.length = M ∧ w_inverse.length = M then
      if x_forward.length = size ∧ x_inverse.length = size then
        some (mkBluesteins size M inner)
      else none
    else none
  else none

/-- Modelled from the documented contract of `core::cell::RefCell`: taking a
mutable borrow fails (panics) exactly when the cell is already borrowed;
`busy` is the borrow state of the engine's `work` cell. -/
def borrow_mut (busy : Bool) : Option Bool :=
  if busy then none else some true

/-- Embedding of `transform_in_place` together with its runtime borrow guard
(bluesteins.rs line 130): the call first takes a mutable borrow of the `work`
cell and holds it for the whole duration of the call, so `busy` is `true`
exactly while a transform on the same engine is in progress (in particular
inside any callback reached from the inner FFT); `none` models the borrow
panic. -/
noncomputable def transform_in_place_guarded (size M : ℕ) (e : Bluesteins size M)
    (busy : Bool) (work0 input : ℕ → ℂ) (transform : Transform) : Option (ℕ → ℂ) :=
  match borrow_mut busy with
  | none => none
  | some _ => some (transform_in_place size M e work0 input transform)

/-- Unit-modulus phase value `e^{iθ}`. -/
noncomputable def phase (θ : ℝ) : ℂ := Complex.exp ((θ : ℂ) * Complex.I)

/-- Reference definition following the spec's words: `halfTwiddle(index, size)`
is `(cos θ, −sin θ)` with `θ = index·π/size`, evaluated directly from the
closed form. -/
noncomputable def halfTwiddle_spec (index : ℝ) (size : ℕ) : ℂ :=
  ⟨Real.cos (index * Real.pi / (size : ℝ)), -Real.sin (index * Real.pi / (size : ℝ))⟩

/-- Reference definition following the spec's words: the naive O(N²) discrete
Fourier transform, `output[k] = Σ_{j<N} input[j]·e^{−2πi·jk/N}`. -/
noncomputable def naive_dft (N : ℕ) (input : ℕ → ℂ) (k : ℕ) : ℂ :=
  ∑ j ∈ Finset.range N,
    input j * Complex.exp (-(2 * (Real.pi : ℂ) * Complex.I * (j : ℂ) * (k : ℂ)) / (N : ℂ))

/-- Reference definition following the spec's words: the per-kind output
scale, `1` for `Fft` and `UnscaledIfft`, `1/N` for `Ifft` and `1/√N` for the
square-root-scaled kinds. -/
noncomputable def scale_spec (t : Transform) (N : ℕ) : ℂ :=
  match t with
  | Transform.Fft | Transform.UnscaledIfft => 1
  | Transform.Ifft => 1 / (N : ℂ)
  | Transform.SqrtScaledFft | Transform.SqrtScaledIfft => 1 / ((Real.sqrt (N : ℝ) : ℝ) : ℂ)

/-- Exactness hypothesis on the inner FFT capability: its forward transform is
the exact unnormalized length-`M` DFT, and its inverse transform undoes its
forward transform at every buffer position below `M`. -/
def IsExactDft (M : ℕ) (inner : InnerFft M) : Prop :=
  (∀ v j, inner.fft v j =
    ∑ k ∈ Finset.range M, v k * phase (-(2 * Real.pi * (j : ℝ) * (k : ℝ)) / (M : ℝ))) ∧
  (∀ v j, j < M → inner.ifft (inner.fft v) j = v j)

/-- Concrete inner FFT capability used to witness the exactness hypothesis:
the unnormalized DFT and its normalized inverse. -/
noncomputable def exactDft (M : ℕ) : InnerFft M :=
  { fft := fun v j => ∑ k ∈ Finset.range M, v k * phase (-(2 * Real.pi * (j : ℝ) * (k : ℝ)) / (M : ℝ))
    ifft := fun v j =>
      ((M : ℂ))⁻¹ * ∑ k ∈ Finset.range M, v k * phase ((2 * Real.pi * (j : ℝ) * (k : ℝ)) / (M : ℝ)) }

end FourierBluestein

namespace FourierBluestein

lemma phase_add (a b : ℝ) : phase a * phase b = phase (a + b) := by
  rw [phase, phase, phase, ← Complex.exp_add]
  congr 1
  push_cast
  ring

lemma phase_zero : phase 0 = 1 := by
  simp [phase]

lemma star_phase (a : ℝ) : star (phase a) = phase (-a) := by
  rw [phase, phase]
  have h : (starRingEnd ℂ) ((a : ℂ) * Complex.I) = ((-a : ℝ) : ℂ) * Complex.I := by
    rw [map_mul, Complex.conj_I, Complex.conj_ofReal]
    push_cast
    ring
  rw [← h, Complex.exp_conj]
  rfl

lemma phase_pow (θ : ℝ) (n : ℕ) : phase θ ^ n = phase (n * θ) := by
  rw [phase, phase, ← Complex.exp_nat_mul]
  congr 1
  push_cast
  ring

lemma phase_int_two_pi (n : ℤ) : phase (2 * Real.pi * n) = 1 := by
  rw [phase, show ((2 * Real.pi * (n : ℝ) : ℝ) : ℂ) * Complex.I =
      (n : ℂ) * (2 * (Real.pi : ℂ) * Complex.I) by push_cast; ring]
  exact Complex.exp_int_mul_two_pi_mul_I n

lemma phase_add_int_two_pi (a : ℝ) (n : ℤ) : phase (a + 2 * Real.pi * n) = phase a := by
  rw [← phase_add, phase_int_two_pi, mul_one]

lemma phase_eq_one_of_ne {θ : ℝ} (h : phase θ = 1) : ∃ n : ℤ, θ = 2 * Real.pi * n := by
  rw [phase, Complex.exp_eq_one_iff] at h
  obtain ⟨n, hn⟩ := h
  refine ⟨n, ?_⟩
  have h2 : (θ : ℂ) = (n : ℂ) * (2 * (Real.pi : ℂ)) := by
    have hn2 : (θ : ℂ) * Complex.I = ((n : ℂ) * (2 * (Real.pi : ℂ))) * Complex.I := by
      rw [hn]; ring
    exact mul_right_cancel₀ Complex.I_ne_zero hn2
  have h3 : θ = (n : ℝ) * (2 * Real.pi) := by exact_mod_cast h2
  rw [h3]; ring

end FourierBluestein

namespace FourierBluestein

lemma phase_sum_orth (N : ℕ) (hN : 0 < N) (a b : ℕ) (ha : a < N) (hb : b < N) :
    ∑ j ∈ Finset.range N, phase (2 * Real.pi * (j : ℝ) * ((a : ℝ) - (b : ℝ)) / (N : ℝ)) =
      if a = b then (N : ℂ) else 0 := by
  rcases eq_or_ne a b with hab | hab
  · subst hab
    simp [sub_self, phase_zero]
  · have hterm : ∀ j ∈ Finset.range N,
        phase (2 * Real.pi * (j : ℝ) * ((a : ℝ) - (b : ℝ)) / (N : ℝ)) =
          phase (2 * Real.pi * ((a : ℝ) - (b : ℝ)) / (N : ℝ)) ^ j := by
      intro j _
      rw [phase_pow]
      congr 1
      ring
    rw [Finset.sum_congr rfl hterm]
    have hNR : (N : ℝ) ≠ 0 := Nat.cast_ne_zero.mpr hN.ne'
    have hz1 : phase (2 * Real.pi * ((a : ℝ) - (b : ℝ)) / (N : ℝ)) ≠ 1 := by
      intro h1
      obtain ⟨n, hn⟩ := phase_eq_one_of_ne h1
      have h5 : 2 * Real.pi * ((a : ℝ) - (b : ℝ)) = 2 * Real.pi * ((n : ℝ) * (N : ℝ)) := by
        field_simp at hn
        linear_combination hn
      have h4 : (a : ℝ) - (b : ℝ) = (n : ℝ) * (N : ℝ) :=
        mul_left_cancel₀ (by positivity) h5
      have h6 : (a : ℤ) - (b : ℤ) = n * (N : ℤ) := by exact_mod_cast h4
      have haZ : (a : ℤ) < (N : ℤ) := by exact_mod_cast ha
      have hbZ : (b : ℤ) < (N : ℤ) := by exact_mod_cast hb
      have ha0 : (0 : ℤ) ≤ (a : ℤ) := Int.natCast_nonneg a
      have hb0 : (0 : ℤ) ≤ (b : ℤ) := Int.natCast_nonneg b
      have hNZ : (0 : ℤ) < (N : ℤ) := by exact_mod_cast hN
      have habZ : (a : ℤ) ≠ (b : ℤ) := by exact_mod_cast hab
      rcases lt_trichotomy n 0 with hn0 | hn0 | hn0
      · have h7 : n * (N : ℤ) ≤ -1 * (N : ℤ) :=
          mul_le_mul_of_nonneg_right (by omega) (le_of_lt hNZ)
        linarith
      · subst hn0
        simp only [zero_mul] at h6
        omega
      · have h7 : 1 * (N : ℤ) ≤ n * (N : ℤ) :=
          mul_le_mul_of_nonneg_right (by omega) (le_of_lt hNZ)
        linarith
    have hzN : phase (2 * Real.pi * ((a : ℝ) - (b : ℝ)) / (N : ℝ)) ^ N = 1 := by
      rw [phase_pow]
      have hexp : (N : ℝ) * (2 * Real.pi * ((a : ℝ) - (b : ℝ)) / (N : ℝ)) =
          2 * Real.pi * (((a : ℤ) - (b : ℤ) : ℤ) : ℝ) := by
        push_cast
        field_simp
      rw [hexp, phase_int_two_pi]
    rw [geom_sum_eq hz1, hzN]
    simp [hab]

lemma phase_mod_index (M : ℕ) (hM : 0 < M) (j x : ℕ) :
    phase (-(2 * Real.pi * (j : ℝ) * ((x % M : ℕ) : ℝ)) / (M : ℝ)) =
      phase (-(2 * Real.pi * (j : ℝ) * (x : ℝ)) / (M : ℝ)) := by
  have hdm : (M : ℝ) * ((x / M : ℕ) : ℝ) + ((x % M : ℕ) : ℝ) = (x : ℝ) := by
    exact_mod_cast congrArg (Nat.cast : ℕ → ℝ) (Nat.div_add_mod x M)
  have hMR : (M : ℝ) ≠ 0 := Nat.cast_ne_zero.mpr hM.ne'
  have key : ∀ n : ℤ, n = -((j * (x / M) : ℕ) : ℤ) →
      -(2 * Real.pi * (j : ℝ) * (x : ℝ)) / (M : ℝ) =
        -(2 * Real.pi * (j : ℝ) * ((x % M : ℕ) : ℝ)) / (M : ℝ) + 2 * Real.pi * (n : ℝ) := by
    intro n hn
    subst hn
    rw [← hdm]
    generalize (x / M : ℕ) = q
    push_cast
    field_simp
    ring
  rw [key (-((j * (x / M) : ℕ) : ℤ)) rfl, phase_add_int_two_pi]

lemma cyc_left_inv (M p m : ℕ) (hp : p < M) (hm : m < M) :
    (p + (m + M - p) % M) % M = m := by
  rw [Nat.add_mod_mod]
  have h1 : p + (m + M - p) = m + M := by omega
  rw [h1, Nat.add_mod_right, Nat.mod_eq_of_lt hm]

lemma cyc_right_inv (M p l : ℕ) (hp : p < M) (hl : l < M) :
    ((p + l) % M + M - p) % M = l := by
  have h1 : (p + l) % M + M - p = (p + l) % M + (M - p) := by omega
  rw [h1, Nat.mod_add_mod]
  have h2 : p + l + (M - p) = l + M := by omega
  rw [h2, Nat.add_mod_right, Nat.mod_eq_of_lt hl]

lemma cyclic_reindex (M : ℕ) (hM : 0 < M) (p : ℕ) (hp : p < M) (j : ℕ) (b : ℕ → ℂ) (c : ℂ) :
    ∑ m ∈ Finset.range M,
        c * b ((m + M - p) % M) * phase (-(2 * Real.pi * (j : ℝ) * (m : ℝ)) / (M : ℝ)) =
      ∑ l ∈ Finset.range M,
        c * b l * phase (-(2 * Real.pi * (j : ℝ) * ((p : ℝ) + (l : ℝ))) / (M : ℝ)) := by
  refine Finset.sum_nbij' (fun m => (m + M - p) % M) (fun l => (p + l) % M) ?_ ?_ ?_ ?_ ?_
  · intro m _
    exact Finset.mem_range.mpr (Nat.mod_lt _ hM)
  · intro l _
    exact Finset.mem_range.mpr (Nat.mod_lt _ hM)
  · intro m hm
    exact cyc_left_inv M p m hp (Finset.mem_range.mp hm)
  · intro l hl
    exact cyc_right_inv M p l hp (Finset.mem_range.mp hl)
  · intro m hm
    rw [Finset.mem_range] at hm
    have hq : (p + (m + M - p) % M) % M = m := cyc_left_inv M p m hp hm
    have hcast : ((p : ℝ) + (((m + M - p) % M : ℕ) : ℝ)) = ((p + (m + M - p) % M : ℕ) : ℝ) := by
      push_cast
      ring
    rw [hcast, ← phase_mod_index M hM j (p + (m + M - p) % M), hq]

lemma dft_convolution (M : ℕ) (hM : 0 < M) (a b : ℕ → ℂ) (j : ℕ) :
    (∑ k ∈ Finset.range M, a k * phase (-(2 * Real.pi * (j : ℝ) * (k : ℝ)) / (M : ℝ))) *
        (∑ l ∈ Finset.range M, b l * phase (-(2 * Real.pi * (j : ℝ) * (l : ℝ)) / (M : ℝ))) =
      ∑ m ∈ Finset.range M,
        (∑ p ∈ Finset.range M, a p * b ((m + M - p) % M)) *
          phase (-(2 * Real.pi * (j : ℝ) * (m : ℝ)) / (M : ℝ)) := by
  calc
    (∑ k ∈ Finset.range M, a k * phase (-(2 * Real.pi * (j : ℝ) * (k : ℝ)) / (M : ℝ))) *
        (∑ l ∈ Finset.range M, b l * phase (-(2 * Real.pi * (j : ℝ) * (l : ℝ)) / (M : ℝ)))
      = ∑ p ∈ Finset.range M, ∑ l ∈ Finset.range M,
          (a p * phase (-(2 * Real.pi * (j : ℝ) * (p : ℝ)) / (M : ℝ))) *
            (b l * phase (-(2 * Real.pi * (j : ℝ) * (l : ℝ)) / (M : ℝ))) := by
        rw [Finset.sum_mul_sum]
    _ = ∑ p ∈ Finset.range M, ∑ l ∈ Finset.range M,
          a p * b l * phase (-(2 * Real.pi * (j : ℝ) * ((p : ℝ) + (l : ℝ))) / (M : ℝ)) := by
        refine Finset.sum_congr rfl fun p _ => Finset.sum_congr rfl fun l _ => ?_
        have hph : phase (-(2 * Real.pi * (j : ℝ) * (p : ℝ)) / (M : ℝ)) *
            phase (-(2 * Real.pi * (j : ℝ) * (l : ℝ)) / (M : ℝ)) =
            phase (-(2 * Real.pi * (j : ℝ) * ((p : ℝ) + (l : ℝ))) / (M : ℝ)) := by
          rw [phase_add]
          congr 1
          ring
        calc (a p * phase (-(2 * Real.pi * (j : ℝ) * (p : ℝ)) / (M : ℝ))) *
              (b l * phase (-(2 * Real.pi * (j : ℝ) * (l : ℝ)) / (M : ℝ)))
            = a p * b l * (phase (-(2 * Real.pi * (j : ℝ) * (p : ℝ)) / (M : ℝ)) *
                phase (-(2 * Real.pi * (j : ℝ) * (l : ℝ)) / (M : ℝ))) := by ring
          _ = a p * b l * phase (-(2 * Real.pi * (j : ℝ) * ((p : ℝ) + (l : ℝ))) / (M : ℝ)) := by
              rw [hph]
    _ = ∑ p ∈ Finset.range M, ∑ m ∈ Finset.range M,
          a p * b ((m + M - p) % M) * phase (-(2 * Real.pi * (j : ℝ) * (m : ℝ)) / (M : ℝ)) := by
        refine Finset.sum_congr rfl fun p hp => ?_
        exact (cyclic_reindex M hM p (Finset.mem_range.mp hp) j b (a p)).symm
    _ = ∑ m ∈ Finset.range M, ∑ p ∈ Finset.range M,
          a p * b ((m + M - p) % M) * phase (-(2 * Real.pi * (j : ℝ) * (m : ℝ)) / (M : ℝ)) :=
        Finset.sum_comm
    _ = ∑ m ∈ Finset.range M,
          (∑ p ∈ Finset.range M, a p * b ((m + M - p) % M)) *
            phase (-(2 * Real.pi * (j : ℝ) * (m : ℝ)) / (M : ℝ)) := by
        simp_rw [Finset.sum_mul]

end FourierBluestein

namespace FourierBluestein

lemma compute_half_twiddle_eq_phase (index : ℝ) (size : ℕ) :
    compute_half_twiddle index size = phase (-(index * Real.pi / (size : ℝ))) := by
  have hre : (phase (-(index * Real.pi / (size : ℝ)))).re =
      Real.cos (index * Real.pi / (size : ℝ)) := by
    rw [phase, Complex.exp_ofReal_mul_I_re, Real.cos_neg]
  have him : (phase (-(index * Real.pi / (size : ℝ)))).im =
      -Real.sin (index * Real.pi / (size : ℝ)) := by
    rw [phase, Complex.exp_ofReal_mul_I_im, Real.sin_neg]
  apply Complex.ext
  · rw [hre]
    rfl
  · rw [him]
    rfl

/-- Generic chirp table on the caller-length range, signed by `σ` (`σ = -1`
gives the forward tables, `σ = 1` the inverse tables). -/
noncomputable def chirp_x (σ : ℝ) (N : ℕ) : ℕ → ℂ := fun i =>
  phase (σ * (i : ℝ) ^ 2 * Real.pi / (N : ℝ))

/-- Generic raw chirp kernel on the inner-length range, signed by `σ`. -/
noncomputable def chirp_w (σ : ℝ) (N M : ℕ) : ℕ → ℂ := fun i =>
  if i < N then phase (-(σ * (i : ℝ) ^ 2 * Real.pi) / (N : ℝ))
  else if M - N < i then phase (-(σ * ((i : ℝ) - (M : ℝ)) ^ 2 * Real.pi) / (N : ℝ))
  else 0

lemma initialize_x_forward_eq (N : ℕ) : initialize_x_forward N = chirp_x (-1) N := by
  funext i
  simp only [initialize_x_forward, chirp_x]
  rw [compute_half_twiddle_eq_phase, star_phase]
  congr 1
  ring

lemma initialize_x_inverse_eq (N : ℕ) : initialize_x_inverse N = chirp_x 1 N := by
  funext i
  simp only [initialize_x_inverse, chirp_x]
  rw [compute_half_twiddle_eq_phase]
  congr 1
  ring

lemma initialize_w_forward_eq (N M : ℕ) : initialize_w_forward N M = chirp_w (-1) N M := by
  funext i
  simp only [initialize_w_forward, w_twiddle_index, chirp_w]
  by_cases h1 : i < N
  · simp only [if_pos h1]
    rw [compute_half_twiddle_eq_phase, star_phase]
    congr 1
    ring
  · simp only [if_neg h1]
    by_cases h2 : M - N < i
    · simp only [if_pos h2]
      rw [compute_half_twiddle_eq_phase, star_phase]
      congr 1
      ring
    · simp only [if_neg h2]

lemma initialize_w_inverse_eq (N M : ℕ) : initialize_w_inverse N M = chirp_w 1 N M := by
  funext i
  simp only [initialize_w_inverse, w_twiddle_index, chirp_w]
  by_cases h1 : i < N
  · simp only [if_pos h1]
    rw [compute_half_twiddle_eq_phase]
    congr 1
    ring
  · simp only [if_neg h1]
    by_cases h2 : M - N < i
    · simp only [if_pos h2]
      rw [compute_half_twiddle_eq_phase]
      congr 1
      ring
    · simp only [if_neg h2]

lemma isExactDft_exactDft (M : ℕ) (hM : 0 < M) : IsExactDft M (exactDft M) := by
  constructor
  · intro v j
    rfl
  · intro v j hj
    have hMC : (M : ℂ) ≠ 0 := Nat.cast_ne_zero.mpr hM.ne'
    show ((M : ℂ))⁻¹ * ∑ k ∈ Finset.range M,
        (∑ l ∈ Finset.range M, v l * phase (-(2 * Real.pi * (k : ℝ) * (l : ℝ)) / (M : ℝ))) *
          phase ((2 * Real.pi * (j : ℝ) * (k : ℝ)) / (M : ℝ)) = v j
    have hswap : ∑ k ∈ Finset.range M,
        (∑ l ∈ Finset.range M, v l * phase (-(2 * Real.pi * (k : ℝ) * (l : ℝ)) / (M : ℝ))) *
          phase ((2 * Real.pi * (j : ℝ) * (k : ℝ)) / (M : ℝ)) =
        ∑ l ∈ Finset.range M, v l *
          ∑ k ∈ Finset.range M,
            phase (2 * Real.pi * (k : ℝ) * ((j : ℝ) - (l : ℝ)) / (M : ℝ)) := by
      calc
        ∑ k ∈ Finset.range M,
            (∑ l ∈ Finset.range M, v l * phase (-(2 * Real.pi * (k : ℝ) * (l : ℝ)) / (M : ℝ))) *
              phase ((2 * Real.pi * (j : ℝ) * (k : ℝ)) / (M : ℝ))
          = ∑ k ∈ Finset.range M, ∑ l ∈ Finset.range M,
              v l * phase (2 * Real.pi * (k : ℝ) * ((j : ℝ) - (l : ℝ)) / (M : ℝ)) := by
            refine Finset.sum_congr rfl fun k _ => ?_
            rw [Finset.sum_mul]
            refine Finset.sum_congr rfl fun l _ => ?_
            have hph : phase (-(2 * Real.pi * (k : ℝ) * (l : ℝ)) / (M : ℝ)) *
                phase ((2 * Real.pi * (j : ℝ) * (k : ℝ)) / (M : ℝ)) =
                phase (2 * Real.pi * (k : ℝ) * ((j : ℝ) - (l : ℝ)) / (M : ℝ)) := by
              rw [phase_add]
              congr 1
              ring
            calc v l * phase (-(2 * Real.pi * (k : ℝ) * (l : ℝ)) / (M : ℝ)) *
                  phase ((2 * Real.pi * (j : ℝ) * (k : ℝ)) / (M : ℝ))
                = v l * (phase (-(2 * Real.pi * (k : ℝ) * (l : ℝ)) / (M : ℝ)) *
                    phase ((2 * Real.pi * (j : ℝ) * (k : ℝ)) / (M : ℝ))) := by ring
              _ = v l * phase (2 * Real.pi * (k : ℝ) * ((j : ℝ) - (l : ℝ)) / (M : ℝ)) := by
                  rw [hph]
        _ = ∑ l ∈ Finset.range M, ∑ k ∈ Finset.range M,
              v l * phase (2 * Real.pi * (k : ℝ) * ((j : ℝ) - (l : ℝ)) / (M : ℝ)) :=
            Finset.sum_comm
        _ = ∑ l ∈ Finset.range M, v l *
              ∑ k ∈ Finset.range M,
                phase (2 * Real.pi * (k : ℝ) * ((j : ℝ) - (l : ℝ)) / (M : ℝ)) := by
            refine Finset.sum_congr rfl fun l _ => ?_
            rw [Finset.mul_sum]
    rw [hswap]
    have horth : ∀ l ∈ Finset.range M,
        v l * ∑ k ∈ Finset.range M,
            phase (2 * Real.pi * (k : ℝ) * ((j : ℝ) - (l : ℝ)) / (M : ℝ)) =
          if j = l then v l * (M : ℂ) else 0 := by
      intro l hl
      rw [phase_sum_orth M hM j l hj (Finset.mem_range.mp hl)]
      split_ifs
      · rfl
      · rw [mul_zero]
    rw [Finset.sum_congr rfl horth,
      Finset.sum_ite_eq (Finset.range M) j (fun l => v l * (M : ℂ)),
      if_pos (Finset.mem_range.mpr hj)]
    field_simp

end FourierBluestein

namespace FourierBluestein

/-- Scale factor of the write-back loop of `apply`, exactly as computed by the
source's `match` (bluesteins.rs lines 172–190). -/
noncomputable def scale_code (t : Transform) (N : ℕ) : ℂ :=
  match t with
  | Transform.Fft | Transform.UnscaledIfft => 1
  | Transform.Ifft => ((((1 : ℝ) / (N : ℝ)) : ℝ) : ℂ)
  | Transform.SqrtScaledFft | Transform.SqrtScaledIfft =>
      ((((1 : ℝ) / Real.sqrt (N : ℝ)) : ℝ) : ℂ)

lemma chirp_w_cyc (σ : ℝ) (N M : ℕ) (hM : 2 * N - 1 ≤ M) (m p : ℕ)
    (hm : m < N) (hp : p < N) :
    chirp_w σ N M ((m + M - p) % M) =
      phase (-(σ * ((m : ℝ) - (p : ℝ)) ^ 2 * Real.pi) / (N : ℝ)) := by
  rcases le_or_lt p m with hpm | hmp
  · have hidx : (m + M - p) % M = m - p := by
      have h1 : m + M - p = (m - p) + M := by omega
      rw [h1, Nat.add_mod_right, Nat.mod_eq_of_lt (by omega)]
    rw [hidx]
    simp only [chirp_w]
    rw [if_pos (by omega : m - p < N), Nat.cast_sub hpm]
  · have hidx : (m + M - p) % M = m + M - p := Nat.mod_eq_of_lt (by omega)
    rw [hidx]
    simp only [chirp_w]
    rw [if_neg (by omega : ¬ m + M - p < N), if_pos (by omega : M - N < m + M - p)]
    have hple : p ≤ m + M := by omega
    have hc2 : (((m + M - p : ℕ) : ℝ) - (M : ℝ)) = ((m : ℝ) - (p : ℝ)) := by
      rw [Nat.cast_sub hple, Nat.cast_add]
      ring
    rw [hc2]

lemma ifft_convolved (σ : ℝ) (N M : ℕ) (hN : 0 < N) (hM : 2 * N - 1 ≤ M)
    (inner : InnerFft M) (hdft : IsExactDft M inner) (v work0 : ℕ → ℂ) (k : ℕ) (hk : k < N) :
    inner.ifft
        (convolved_scratch N M (chirp_x σ N) v work0 (inner.fft (chirp_w σ N M)) inner) k =
      ∑ p ∈ Finset.range N,
        chirp_x σ N p * v p * phase (-(σ * ((k : ℝ) - (p : ℝ)) ^ 2 * Real.pi) / (N : ℝ)) := by
  have hM0 : 0 < M := by omega
  have hNM : N ≤ M := by omega
  set A := modulated_scratch N M (chirp_x σ N) v work0 with hA
  have hconv : convolved_scratch N M (chirp_x σ N) v work0 (inner.fft (chirp_w σ N M)) inner
      = inner.fft (fun m => ∑ p ∈ Finset.range M, A p * chirp_w σ N M ((m + M - p) % M)) := by
    funext j
    show inner.fft A j * inner.fft (chirp_w σ N M) j = _
    rw [hdft.1 A j, hdft.1 (chirp_w σ N M) j,
      hdft.1 (fun m => ∑ p ∈ Finset.range M, A p * chirp_w σ N M ((m + M - p) % M)) j]
    exact dft_convolution M hM0 A (chirp_w σ N M) j
  rw [hconv, hdft.2 _ k (lt_of_lt_of_le hk hNM)]
  show ∑ p ∈ Finset.range M, A p * chirp_w σ N M ((k + M - p) % M) =
      ∑ p ∈ Finset.range N,
        chirp_x σ N p * v p * phase (-(σ * ((k : ℝ) - (p : ℝ)) ^ 2 * Real.pi) / (N : ℝ))
  have hzero : ∀ p ∈ Finset.range M, p ∉ Finset.range N →
      A p * chirp_w σ N M ((k + M - p) % M) = 0 := by
    intro p hpM hpN
    rw [Finset.mem_range] at hpM
    rw [Finset.mem_range, not_lt] at hpN
    have hAp : A p = 0 := by
      rw [hA]
      simp only [modulated_scratch]
      rw [if_neg (by omega), if_pos hpM]
    rw [hAp, zero_mul]
  rw [← Finset.sum_subset (Finset.range_subset.mpr hNM) hzero]
  refine Finset.sum_congr rfl fun p hp => ?_
  rw [Finset.mem_range] at hp
  have hAp : A p = chirp_x σ N p * v p := by
    rw [hA]
    simp only [modulated_scratch]
    rw [if_pos hp]
  rw [hAp, chirp_w_cyc σ N M hM k p hk hp]

lemma apply_chirp (σ : ℝ) (N M : ℕ) (hN : 0 < N) (hM : 2 * N - 1 ≤ M)
    (inner : InnerFft M) (hdft : IsExactDft M inner) (v work0 : ℕ → ℂ) (t : Transform)
    (k : ℕ) (hk : k < N) :
    apply N M v work0 (chirp_x σ N) (inner.fft (chirp_w σ N M)) inner t k =
      (∑ p ∈ Finset.range N,
          v p * phase (σ * 2 * (p : ℝ) * (k : ℝ) * Real.pi / (N : ℝ))) *
        scale_code t N := by
  have hcore : inner.ifft
      (convolved_scratch N M (chirp_x σ N) v work0 (inner.fft (chirp_w σ N M)) inner) k *
        chirp_x σ N k =
      ∑ p ∈ Finset.range N,
        v p * phase (σ * 2 * (p : ℝ) * (k : ℝ) * Real.pi / (N : ℝ)) := by
    rw [ifft_convolved σ N M hN hM inner hdft v work0 k hk, Finset.sum_mul]
    refine Finset.sum_congr rfl fun p hp => ?_
    simp only [chirp_x]
    calc
      phase (σ * (p : ℝ) ^ 2 * Real.pi / (N : ℝ)) * v p *
            phase (-(σ * ((k : ℝ) - (p : ℝ)) ^ 2 * Real.pi) / (N : ℝ)) *
          phase (σ * (k : ℝ) ^ 2 * Real.pi / (N : ℝ))
        = v p * (phase (σ * (p : ℝ) ^ 2 * Real.pi / (N : ℝ)) *
            phase (-(σ * ((k : ℝ) - (p : ℝ)) ^ 2 * Real.pi) / (N : ℝ)) *
            phase (σ * (k : ℝ) ^ 2 * Real.pi / (N : ℝ))) := by ring
      _ = v p * phase (σ * 2 * (p : ℝ) * (k : ℝ) * Real.pi / (N : ℝ)) := by
          rw [phase_add, phase_add]
          congr 1
          ring
  cases t with
  | Fft =>
      simp only [apply]
      rw [if_pos hk, show scale_code Transform.Fft N = 1 from rfl, mul_one]
      exact hcore
  | UnscaledIfft =>
      simp only [apply]
      rw [if_pos hk, show scale_code Transform.UnscaledIfft N = 1 from rfl, mul_one]
      exact hcore
  | Ifft =>
      simp only [apply]
      rw [if_pos hk, hcore]
      rfl
  | SqrtScaledFft =>
      simp only [apply]
      rw [if_pos hk, hcore]
      rfl
  | SqrtScaledIfft =>
      simp only [apply]
      rw [if_pos hk, hcore]
      rfl

end FourierBluestein

namespace FourierBluestein

/-- C1: for every size `N ≥ 1` and every length-`N` complex input buffer,
`transform_in_place` with kind `Fft` yields the naive O(N²) discrete Fourier
transform of the input (`output[k] = Σ_{j<N} input[j]·e^{−2πi·jk/N}`), under
exact real arithmetic, for any engine geometry with `M ≥ 2N − 1` (as enforced
at construction) and under the hypothesis that the inner FFT is the exact
unnormalized length-`M` DFT with an exact inverse. -/
theorem fft_transform_computes_naive_dft (N M : ℕ) (hN : 1 ≤ N) (hM : 2 * N - 1 ≤ M)
    (inner : InnerFft M) (hdft : IsExactDft M inner) (v work0 : ℕ → ℂ) (k : ℕ) (hk : k < N) :
    transform_in_place N M (mkBluesteins N M inner) work0 v Transform.Fft k =
      naive_dft N v k := by
  have hN0 : 0 < N := hN
  have hsel : transform_in_place N M (mkBluesteins N M inner) work0 v Transform.Fft =
      apply N M v work0 (initialize_x_forward N) (inner.fft (initialize_w_forward N M)) inner
        Transform.Fft := rfl
  rw [hsel, initialize_x_forward_eq, initialize_w_forward_eq,
    apply_chirp (-1) N M hN0 hM inner hdft v work0 Transform.Fft k hk,
    show scale_code Transform.Fft N = 1 from rfl, mul_one, naive_dft]
  refine Finset.sum_congr rfl fun p _ => ?_
  congr 1
  rw [phase]
  congr 1
  push_cast
  ring

/-- Witness for C1 at `N = M = 1` with the exact inner DFT and the constant
input buffer `1`. -/
theorem fft_transform_computes_naive_dft_witness :
    transform_in_place 1 1 (mkBluesteins 1 1 (exactDft 1)) (fun _ => 0) (fun _ => 1)
        Transform.Fft 0 = naive_dft 1 (fun _ => 1) 0 :=
  fft_transform_computes_naive_dft 1 1 (by norm_num) (by norm_num) (exactDft 1)
    (isExactDft_exactDft 1 (by norm_num)) (fun _ => 1) (fun _ => 0) 0 (by norm_num)

/-- C2: for every size `N ≥ 1` and every length-`N` complex sequence, applying
`transform_in_place` with kind `Fft` and then with kind `Ifft` on the same
engine reproduces the original sequence exactly, under exact real arithmetic
with an exact inner forward/inverse DFT pair, for any engine geometry with
`M ≥ 2N − 1` (as enforced at construction) and any prior scratch contents of
the two calls. -/
theorem fft_then_ifft_roundtrip (N M : ℕ) (hN : 1 ≤ N) (hM : 2 * N - 1 ≤ M)
    (inner : InnerFft M) (hdft : IsExactDft M inner) (v work0 work1 : ℕ → ℂ) (k : ℕ)
    (hk : k < N) :
    transform_in_place N M (mkBluesteins N M inner) work1
        (transform_in_place N M (mkBluesteins N M inner) work0 v Transform.Fft)
        Transform.Ifft k = v k := by
  have hN0 : 0 < N := hN
  have hNC : (N : ℂ) ≠ 0 := Nat.cast_ne_zero.mpr hN0.ne'
  set y := transform_in_place N M (mkBluesteins N M inner) work0 v Transform.Fft with hy
  have hsel : transform_in_place N M (mkBluesteins N M inner) work1 y Transform.Ifft =
      apply N M y work1 (initialize_x_inverse N) (inner.fft (initialize_w_inverse N M)) inner
        Transform.Ifft := rfl
  rw [hsel, initialize_x_inverse_eq, initialize_w_inverse_eq,
    apply_chirp 1 N M hN0 hM inner hdft y work1 Transform.Ifft k hk]
  have hyval : ∀ p ∈ Finset.range N,
      y p * phase (1 * 2 * (p : ℝ) * (k : ℝ) * Real.pi / (N : ℝ)) =
      (∑ q ∈ Finset.range N, v q * phase ((-1) * 2 * (q : ℝ) * (p : ℝ) * Real.pi / (N : ℝ))) *
        phase (1 * 2 * (p : ℝ) * (k : ℝ) * Real.pi / (N : ℝ)) := by
    intro p hp
    rw [Finset.mem_range] at hp
    rw [hy]
    have hself : transform_in_place N M (mkBluesteins N M inner) work0 v Transform.Fft =
        apply N M v work0 (initialize_x_forward N) (inner.fft (initialize_w_forward N M)) inner
          Transform.Fft := rfl
    rw [hself, initialize_x_forward_eq, initialize_w_forward_eq,
      apply_chirp (-1) N M hN0 hM inner hdft v work0 Transform.Fft p hp,
      show scale_code Transform.Fft N = 1 from rfl, mul_one]
  rw [Finset.sum_congr rfl hyval]
  have hkey : ∑ p ∈ Finset.range N,
      (∑ q ∈ Finset.range N, v q * phase ((-1) * 2 * (q : ℝ) * (p : ℝ) * Real.pi / (N : ℝ))) *
        phase (1 * 2 * (p : ℝ) * (k : ℝ) * Real.pi / (N : ℝ)) = v k * (N : ℂ) := by
    calc
      ∑ p ∈ Finset.range N,
          (∑ q ∈ Finset.range N,
              v q * phase ((-1) * 2 * (q : ℝ) * (p : ℝ) * Real.pi / (N : ℝ))) *
            phase (1 * 2 * (p : ℝ) * (k : ℝ) * Real.pi / (N : ℝ))
        = ∑ p ∈ Finset.range N, ∑ q ∈ Finset.range N,
            v q * phase (2 * Real.pi * (p : ℝ) * ((k : ℝ) - (q : ℝ)) / (N : ℝ)) := by
          refine Finset.sum_congr rfl fun p _ => ?_
          rw [Finset.sum_mul]
          refine Finset.sum_congr rfl fun q _ => ?_
          calc
            v q * phase ((-1) * 2 * (q : ℝ) * (p : ℝ) * Real.pi / (N : ℝ)) *
                phase (1 * 2 * (p : ℝ) * (k : ℝ) * Real.pi / (N : ℝ))
              = v q * (phase ((-1) * 2 * (q : ℝ) * (p : ℝ) * Real.pi / (N : ℝ)) *
                  phase (1 * 2 * (p : ℝ) * (k : ℝ) * Real.pi / (N : ℝ))) := by ring
            _ = v q * phase (2 * Real.pi * (p : ℝ) * ((k : ℝ) - (q : ℝ)) / (N : ℝ)) := by
                rw [phase_add]
                congr 1
                ring
      _ = ∑ q ∈ Finset.range N, ∑ p ∈ Finset.range N,
            v q * phase (2 * Real.pi * (p : ℝ) * ((k : ℝ) - (q : ℝ)) / (N : ℝ)) :=
          Finset.sum_comm
      _ = ∑ q ∈ Finset.range N, v q *
            ∑ p ∈ Finset.range N,
              phase (2 * Real.pi * (p : ℝ) * ((k : ℝ) - (q : ℝ)) / (N : ℝ)) := by
          refine Finset.sum_congr rfl fun q _ => ?_
          rw [Finset.mul_sum]
      _ = ∑ q ∈ Finset.range N, (if k = q then v q * (N : ℂ) else 0) := by
          refine Finset.sum_congr rfl fun q hq => ?_
          rw [phase_sum_orth N hN0 k q hk (Finset.mem_range.mp hq)]
          split_ifs
          · rfl
          · rw [mul_zero]
      _ = v k * (N : ℂ) := by
          rw [Finset.sum_ite_eq (Finset.range N) k (fun q => v q * (N : ℂ)),
            if_pos (Finset.mem_range.mpr hk)]
  rw [hkey]
  show v k * (N : ℂ) * ((((1 : ℝ) / (N : ℝ)) : ℝ) : ℂ) = v k
  push_cast
  field_simp

/-- Witness for C2 at `N = M = 1` with the exact inner DFT and the constant
input buffer `1`. -/
theorem fft_then_ifft_roundtrip_witness :
    transform_in_place 1 1 (mkBluesteins 1 1 (exactDft 1)) (fun _ => 0)
        (transform_in_place 1 1 (mkBluesteins 1 1 (exactDft 1)) (fun _ => 0) (fun _ => 1)
          Transform.Fft)
        Transform.Ifft 0 = 1 :=
  fft_then_ifft_roundtrip 1 1 (by norm_num) (by norm_num) (exactDft 1)
    (isExactDft_exactDft 1 (by norm_num)) (fun _ => 1) (fun _ => 0) (fun _ => 0) 0 (by norm_num)

end FourierBluestein

namespace FourierBluestein

lemma clog_two_nine : Nat.clog 2 9 = 4 := by
  rw [Nat.clog_of_two_le (by norm_num) (by norm_num), show (9 + 2 - 1) / 2 = 5 by norm_num,
    Nat.clog_of_two_le (by norm_num) (by norm_num), show (5 + 2 - 1) / 2 = 3 by norm_num,
    Nat.clog_of_two_le (by norm_num) (by norm_num), show (3 + 2 - 1) / 2 = 2 by norm_num,
    Nat.clog_of_two_le (by norm_num) (by norm_num), show (2 + 2 - 1) / 2 = 1 by norm_num,
    Nat.clog_one_right]

lemma clog_two_seventeen : Nat.clog 2 17 = 5 := by
  rw [Nat.clog_of_two_le (by norm_num) (by norm_num), show (17 + 2 - 1) / 2 = 9 by norm_num,
    clog_two_nine]

/-- C3 counterexample: for the size `2 ^ 62 + 1` (which satisfies `N ≥ 1`),
`inner_fft_size` does not return the smallest power of two at or above
`2N − 1`; it panics, because that power of two overflows `usize`. -/
theorem inner_fft_size_overflow_counterexample : inner_fft_size (2 ^ 62 + 1) = none := by
  have hwrap : (2 * (2 ^ 62 + 1) + (USIZE_MOD - 1)) % USIZE_MOD = 2 ^ 63 + 1 := by
    norm_num [USIZE_MOD]
  rw [inner_fft_size, hwrap, checked_next_power_of_two, if_neg (by norm_num)]

/-- C3 (amended): for every size `N ≥ 1` such that `2N − 1` does not exceed
`2 ^ 63` (so that no `usize` overflow occurs), `inner_fft_size N` returns the
smallest power of two greater than or equal to `2N − 1`; in particular
`inner_fft_size 5 = 16` and `inner_fft_size 9 = 32`. -/
theorem inner_fft_size_smallest_pow2 :
    (∀ N : ℕ, 1 ≤ N → 2 * N - 1 ≤ 2 ^ 63 →
      ∃ m, inner_fft_size N = some m ∧ (∃ k, m = 2 ^ k) ∧ 2 * N - 1 ≤ m ∧
        ∀ p k2, p = 2 ^ k2 → 2 * N - 1 ≤ p → m ≤ p) ∧
    inner_fft_size 5 = some 16 ∧ inner_fft_size 9 = some 32 := by
  refine ⟨?_, ?_, ?_⟩
  · intro N hN hbound
    have h64 : USIZE_MOD = 18446744073709551616 := by norm_num [USIZE_MOD]
    have h63 : (2 : ℕ) ^ 63 = 9223372036854775808 := by norm_num
    have hwrap : (2 * N + (USIZE_MOD - 1)) % USIZE_MOD = 2 * N - 1 := by
      rw [h63] at hbound
      rw [h64]
      omega
    refine ⟨2 ^ Nat.clog 2 (2 * N - 1), ?_, ⟨_, rfl⟩, ?_, ?_⟩
    · rw [inner_fft_size, hwrap, checked_next_power_of_two, if_pos hbound]
    · exact Nat.le_pow_clog (by norm_num) _
    · intro p k2 hp hle
      subst hp
      exact Nat.pow_le_pow_right (by norm_num)
        ((Nat.le_pow_iff_clog_le (by norm_num)).mp hle)
  · have hwrap : (2 * 5 + (USIZE_MOD - 1)) % USIZE_MOD = 9 := by norm_num [USIZE_MOD]
    rw [inner_fft_size, hwrap, checked_next_power_of_two, if_pos (by norm_num), clog_two_nine]
    norm_num
  · have hwrap : (2 * 9 + (USIZE_MOD - 1)) % USIZE_MOD = 17 := by norm_num [USIZE_MOD]
    rw [inner_fft_size, hwrap, checked_next_power_of_two, if_pos (by norm_num),
      clog_two_seventeen]
    norm_num

/-- Witness for the amended C3 at `N = 6`: the inner size exists, is a power
of two, bounds `2·6 − 1 = 11` and is minimal with these properties. -/
theorem inner_fft_size_smallest_pow2_witness :
    ∃ m, inner_fft_size 6 = some m ∧ (∃ k, m = 2 ^ k) ∧ 2 * 6 - 1 ≤ m ∧
      ∀ p k2, p = 2 ^ k2 → 2 * 6 - 1 ≤ p → m ≤ p :=
  inner_fft_size_smallest_pow2.1 6 (by norm_num) (by norm_num)

/-- C4: for every engine, the `x` tables hold, at each index `i` below the
transform size, `xInverse[i] = halfTwiddle(−i², N)` and
`xForward[i] = conjugate(halfTwiddle(−i², N))`, with `halfTwiddle` evaluated
directly from the spec's closed form. -/
theorem x_tables_match_halfTwiddle (N M : ℕ) (inner : InnerFft M) (i : ℕ) (hi : i < N) :
    (mkBluesteins N M inner).x_inverse i = halfTwiddle_spec (-(i : ℝ) ^ 2) N ∧
    (mkBluesteins N M inner).x_forward i = star (halfTwiddle_spec (-(i : ℝ) ^ 2) N) :=
  ⟨rfl, rfl⟩

/-- Witness for C4 at `N = M = 1`, `i = 0`. -/
theorem x_tables_match_halfTwiddle_witness :
    (mkBluesteins 1 1 (exactDft 1)).x_inverse 0 = halfTwiddle_spec (-((0 : ℕ) : ℝ) ^ 2) 1 ∧
    (mkBluesteins 1 1 (exactDft 1)).x_forward 0 =
      star (halfTwiddle_spec (-((0 : ℕ) : ℝ) ^ 2) 1) :=
  x_tables_match_halfTwiddle 1 1 (exactDft 1) 0 (by norm_num)

/-- C5: for every engine geometry with `M ≥ 2N − 1` (as enforced at
construction), the stored `w` tables are the inner forward FFT of the raw
tables; the raw tables follow the three-way partition (`i < N` gives index
`i²`, `i > M − N` gives index `(i − M)²`, otherwise the zero sample), with the
forward table conjugated; and the low and high ranges never overlap. -/
theorem w_tables_partition (N M : ℕ) (hN : 1 ≤ N) (hM : 2 * N - 1 ≤ M) (inner : InnerFft M) :
    (mkBluesteins N M inner).w_forward = inner.fft (initialize_w_forward N M) ∧
    (mkBluesteins N M inner).w_inverse = inner.fft (initialize_w_inverse N M) ∧
    (∀ i, i < N →
      initialize_w_forward N M i = star (halfTwiddle_spec ((i : ℝ) ^ 2) N) ∧
      initialize_w_inverse N M i = halfTwiddle_spec ((i : ℝ) ^ 2) N) ∧
    (∀ i, M - N < i → i < M →
      initialize_w_forward N M i = star (halfTwiddle_spec (((i : ℝ) - (M : ℝ)) ^ 2) N) ∧
      initialize_w_inverse N M i = halfTwiddle_spec (((i : ℝ) - (M : ℝ)) ^ 2) N) ∧
    (∀ i, N ≤ i → i ≤ M - N →
      initialize_w_forward N M i = 0 ∧ initialize_w_inverse N M i = 0) ∧
    (∀ i, ¬(i < N ∧ M - N < i)) := by
  refine ⟨rfl, rfl, ?_, ?_, ?_, ?_⟩
  · intro i hi
    constructor
    · simp only [initialize_w_forward, w_twiddle_index]
      rw [if_pos hi]
      rfl
    · simp only [initialize_w_inverse, w_twiddle_index]
      rw [if_pos hi]
      rfl
  · intro i h1 h2
    have hiN : ¬ i < N := by omega
    constructor
    · simp only [initialize_w_forward, w_twiddle_index]
      rw [if_neg hiN, if_pos h1]
      rfl
    · simp only [initialize_w_inverse, w_twiddle_index]
      rw [if_neg hiN, if_pos h1]
      rfl
  · intro i h1 h2
    have hiN : ¬ i < N := by omega
    have hiM : ¬ M - N < i := by omega
    constructor
    · simp only [initialize_w_forward, w_twiddle_index]
      rw [if_neg hiN, if_neg hiM]
    · simp only [initialize_w_inverse, w_twiddle_index]
      rw [if_neg hiN, if_neg hiM]
  · intro i hcontra
    omega

/-- Witness for C5 at `N = 2`, `M = 4`: index `2` lies in the middle range and
both raw tables hold the zero sample there. -/
theorem w_tables_partition_witness :
    initialize_w_forward 2 4 2 = 0 ∧ initialize_w_inverse 2 4 2 = 0 :=
  (w_tables_partition 2 4 (by norm_num) (by norm_num) (exactDft 4)).2.2.2.2.1 2
    (by norm_num) (by norm_num)

end FourierBluestein

namespace FourierBluestein

/-- C6: for every transform kind and every buffer position `i` below the
transform size, the final write-back of `apply` stores
`scratch[i] · x[i] · scale(kind, N)`, with `scale` equal to `1` for `Fft` and
`UnscaledIfft`, `1/N` for `Ifft` and `1/√N` for the square-root-scaled kinds;
the scratch value is exactly the inner inverse FFT of the convolved scratch
buffer, with no further normalization. -/
theorem apply_writeback_scale (N M : ℕ) (t : Transform) (v work0 x w : ℕ → ℂ)
    (inner : InnerFft M) (i : ℕ) (hi : i < N) :
    apply N M v work0 x w inner t i =
      inner.ifft (convolved_scratch N M x v work0 w inner) i * x i * scale_spec t N := by
  cases t with
  | Fft =>
      simp only [apply]
      rw [if_pos hi, show scale_spec Transform.Fft N = 1 from rfl, mul_one]
  | UnscaledIfft =>
      simp only [apply]
      rw [if_pos hi, show scale_spec Transform.UnscaledIfft N = 1 from rfl, mul_one]
  | Ifft =>
      simp only [apply]
      rw [if_pos hi, show scale_spec Transform.Ifft N = 1 / (N : ℂ) from rfl]
      have hc : ((((1 : ℝ) / (N : ℝ)) : ℝ) : ℂ) = 1 / (N : ℂ) := by
        push_cast
        ring
      rw [hc]
  | SqrtScaledFft =>
      simp only [apply]
      rw [if_pos hi,
        show scale_spec Transform.SqrtScaledFft N = 1 / ((Real.sqrt (N : ℝ) : ℝ) : ℂ) from rfl]
      have hc : ((((1 : ℝ) / Real.sqrt (N : ℝ)) : ℝ) : ℂ) = 1 / ((Real.sqrt (N : ℝ) : ℝ) : ℂ) := by
        push_cast
        ring
      rw [hc]
  | SqrtScaledIfft =>
      simp only [apply]
      rw [if_pos hi,
        show scale_spec Transform.SqrtScaledIfft N = 1 / ((Real.sqrt (N : ℝ) : ℝ) : ℂ) from rfl]
      have hc : ((((1 : ℝ) / Real.sqrt (N : ℝ)) : ℝ) : ℂ) = 1 / ((Real.sqrt (N : ℝ) : ℝ) : ℂ) := by
        push_cast
        ring
      rw [hc]

/-- Witness for C6 at `N = M = 1`, kind `Ifft`, position `0`. -/
theorem apply_writeback_scale_witness :
    apply 1 1 (fun _ => 1) (fun _ => 0) (fun _ => 1) (fun _ => 1) (exactDft 1)
        Transform.Ifft 0 =
      (exactDft 1).ifft
          (convolved_scratch 1 1 (fun _ => 1) (fun _ => 1) (fun _ => 0) (fun _ => 1)
            (exactDft 1)) 0 * 1 * scale_spec Transform.Ifft 1 :=
  apply_writeback_scale 1 1 Transform.Ifft (fun _ => 1) (fun _ => 0) (fun _ => 1)
    (fun _ => 1) (exactDft 1) 0 (by norm_num)

/-- C7: in every call to `transform_in_place`, the scratch buffer handed to the
inner forward FFT holds `x[i]·input[i]` at every position below the transform
size and zero at every position from the transform size up to the inner size,
whatever the scratch buffer contained before the call. -/
theorem scratch_zero_padding (N M : ℕ) (x v work0 : ℕ → ℂ) :
    (∀ i, i < N → modulated_scratch N M x v work0 i = x i * v i) ∧
    (∀ i, N ≤ i → i < M → modulated_scratch N M x v work0 i = 0) ∧
    (∀ (w : ℕ → ℂ) (inner : InnerFft M) (i : ℕ),
      convolved_scratch N M x v work0 w inner i =
        inner.fft (modulated_scratch N M x v work0) i * w i) := by
  refine ⟨?_, ?_, fun w inner i => rfl⟩
  · intro i hi
    simp only [modulated_scratch]
    rw [if_pos hi]
  · intro i h1 h2
    simp only [modulated_scratch]
    rw [if_neg (by omega), if_pos h2]

/-- Witness for C7 at `N = 1`, `M = 2` with nonzero garbage (`5`) in the
scratch buffer's padding position, which the call zeroes. -/
theorem scratch_zero_padding_witness :
    modulated_scratch 1 2 (fun _ => 1) (fun _ => 1) (fun _ => 5) 1 = 0 :=
  (scratch_zero_padding 1 2 (fun _ => 1) (fun _ => 1) (fun _ => 5)).2.1 1
    (by norm_num) (by norm_num)

/-- C8 counterexample: constructing an engine with a scratch buffer of the
wrong length (here the empty buffer instead of length `M = 1`) succeeds, so
construction does not validate the scratch buffer's length. -/
theorem new_with_fft_ignores_scratch_length :
    (new_with_fft 1 1 (exactDft 1) [0] [0] [0] [0] []).isSome = true := by
  have h1 : inner_fft_size 1 = some 1 := by
    have hwrap : (2 * 1 + (USIZE_MOD - 1)) % USIZE_MOD = 1 := by norm_num [USIZE_MOD]
    rw [inner_fft_size, hwrap, checked_next_power_of_two, if_pos (by norm_num),
      Nat.clog_one_right]
    norm_num
  unfold new_with_fft
  rw [if_pos h1, if_pos (by simp), if_pos (by simp), Option.isSome_some]

/-- C8 (amended): construction succeeds exactly when the inner FFT's size is
the value computed by `inner_fft_size` and the two `w` tables have the inner
length while the two `x` tables have the transform size; any violation is
fatal.  The scratch buffer's length is not validated at construction. -/
theorem new_with_fft_checks_geometry (size M : ℕ) (inner : InnerFft M)
    (wf wi xf xi work : List ℂ) :
    (new_with_fft size M inner wf wi xf xi work).isSome = true ↔
      (inner_fft_size size = some M ∧ wf.length = M ∧ wi.length = M ∧
        xf.length = size ∧ xi.length = size) := by
  unfold new_with_fft
  constructor
  · intro h
    split_ifs at h with h1 h2 h3
    · exact ⟨h1, h2.1, h2.2, h3.1, h3.2⟩
    · simp only [Option.isSome_none, Bool.false_eq_true] at h
    · simp only [Option.isSome_none, Bool.false_eq_true] at h
    · simp only [Option.isSome_none, Bool.false_eq_true] at h
  · rintro ⟨h1, h2, h3, h4, h5⟩
    rw [if_pos h1, if_pos ⟨h2, h3⟩, if_pos ⟨h4, h5⟩, Option.isSome_some]

/-- C9: a nested call to `transform_in_place` made while a transform on the
same engine is in progress (so the `work` cell's borrow flag is set) panics
immediately on the borrow guard, while a call on an idle engine proceeds and
returns the transformed buffer. -/
theorem reentrant_transform_panics (N M : ℕ) (e : Bluesteins N M) (work0 v : ℕ → ℂ)
    (t : Transform) :
    transform_in_place_guarded N M e true work0 v t = none ∧
    transform_in_place_guarded N M e false work0 v t =
      some (transform_in_place N M e work0 v t) :=
  ⟨rfl, rfl⟩

/-- C10: for size `N = 0`, the wrapping computation `2·N − 1` yields
`usize::MAX`, the checked next-power-of-two lookup yields no value and the
unwrap panics, so `inner_fft_size 0` panics and engine construction is
impossible for `N = 0` whatever the other arguments are. -/
theorem size_zero_construction_panics :
    inner_fft_size 0 = none ∧
    ∀ (M : ℕ) (inner : InnerFft M) (wf wi xf xi work : List ℂ),
      new_with_fft 0 M inner wf wi xf xi work = none := by
  have h0 : inner_fft_size 0 = none := by
    rw [inner_fft_size, checked_next_power_of_two, if_neg (by norm_num [USIZE_MOD])]
  refine ⟨h0, fun M inner wf wi xf xi work => ?_⟩
  unfold new_with_fft
  rw [if_neg (by simp [h0])]

end FourierBluestein
